import Mathlib

/-
Verification of the gitbase query-adaptation layer: the analyzer validation
rules (validate_resolved, validate_order_by, validate_group_by,
validate_schema_source, validate_project_tuples) and the tree-entries
virtual table with its two scan strategies (full traversal and by-hash).

The embedding mirrors the Go source. Engine-side abstractions that the code
consumes only through interfaces (sql.Expression, sql.Node, sql.Type,
plumbing hashes, go-git tree/file iterators) are modelled as closed inductive
types carrying exactly the observations the code makes of them: an
expression exposes whether it is an aggregation, its canonical string form
and its static type; a node exposes its concrete variant and its resolved
flag; hash-to-tree resolution distinguishes object-not-found from other
failures. The sql.Context argument of every rule is used by the source only
to open tracing spans and never alters behaviour, so it is dropped here.
-/

namespace Gitbase

/-- Static result type of a SQL expression, as the engine reports it.
Modelled from the spec: the engine type system is external; the validator
observes only whether a type is a multi-column tuple and how many columns it
has, so a tuple is recorded by its column count. -/
inductive SqlType where
  | text
  | tuple (n : Nat)
  | scalar (name : String)
  deriving DecidableEq

/-- sql.IsTuple: a type is a tuple only when it has more than one column
(a one-element tuple is a parenthesized value, not a tuple). -/
def SqlType.isTuple : SqlType → Bool
  | .tuple n => 1 < n
  | _ => false

/-- sql.NumColumns: tuples report their column count, every other type is a
single column. -/
def SqlType.numColumns : SqlType → Nat
  | .tuple n => n
  | _ => 1

/-- A SQL expression as the validator observes it: an aggregation (the
sql.Aggregation interface), an alias wrapper (expression.Alias, with its
child), or any other expression, known by its canonical string form and its
static type. -/
inductive Expression where
  | aggregation (s : String) (typ : SqlType)
  | alias (name : String) (child : Expression)
  | other (s : String) (typ : SqlType)
  deriving DecidableEq

/-- The dynamic type test expr.(sql.Aggregation): only aggregation nodes
satisfy it; in particular an alias wrapping an aggregation does not. -/
def Expression.isAggregation : Expression → Bool
  | .aggregation _ _ => true
  | _ => false

/-- The canonical string form expr.String(). An alias prints as its child
followed by the alias name, as expression.Alias does. -/
def Expression.str : Expression → String
  | .aggregation s _ => s
  | .alias name child => child.str ++ " as " ++ name
  | .other s _ => s

/-- The static type expr.Type(). An alias delegates to its child. -/
def Expression.typ : Expression → SqlType
  | .aggregation _ t => t
  | .alias _ child => child.typ
  | .other _ t => t

/-- One sort key of a plan.Sort node; the validator inspects only its Column
expression. -/
structure SortField where
  column : Expression
  deriving DecidableEq

/-- A schema column (sql.Column): name, type, nullability and the name of
the table it is sourced from. -/
structure Column where
  name : String
  typ : SqlType
  nullable : Bool
  source : String
  deriving DecidableEq

/-- A logical plan node, restricted to the variants the validation rules
pattern-match on, plus a catch-all for every other node kind. Each variant
carries the resolved flag the node reports through sql.Node.Resolved. -/
inductive Node where
  | sort (sortFields : List SortField) (child : Node) (resolved : Bool)
  | groupBy (aggregate : List Expression) (grouping : List Expression)
      (child : Node) (resolved : Bool)
  | project (projections : List Expression) (child : Node) (resolved : Bool)
  | table (name : String) (schema : List Column) (resolved : Bool)
  | tableAlias (name : String) (child : Node) (resolved : Bool)
  | other (kind : String) (resolved : Bool)
  deriving DecidableEq

/-- The resolved flag n.Resolved() reports. -/
def Node.resolved : Node → Bool
  | .sort _ _ r => r
  | .groupBy _ _ _ r => r
  | .project _ _ r => r
  | .table _ _ r => r
  | .tableAlias _ _ r => r
  | .other _ r => r

/-- The node kind, as the %T format verb renders it in error messages.
Concrete table implementations have table-specific Go types; they are
collapsed to one marker here since no claim depends on the exact text. -/
def Node.kind : Node → String
  | .sort _ _ _ => "*plan.Sort"
  | .groupBy _ _ _ _ => "*plan.GroupBy"
  | .project _ _ _ => "*plan.Project"
  | .table _ _ _ => "sql.Table"
  | .tableAlias _ _ _ => "*plan.TableAlias"
  | .other k _ => k

/-- Discriminator: is this node a plan.GroupBy. -/
def Node.isGroupBy : Node → Bool
  | .groupBy _ _ _ _ => true
  | _ => false

/-- Discriminator: is this node a plan.Sort. -/
def Node.isSort : Node → Bool
  | .sort _ _ _ => true
  | _ => false

/-- Discriminator: the nodes validateSchemaSource actually validates, a
table or a table alias directly wrapping a table. -/
def Node.schemaSourceChecked : Node → Bool
  | .table _ _ _ => true
  | .tableAlias _ (.table _ _ _) _ => true
  | _ => false

/-- Discriminator: the nodes validateProjectTuples inspects, a Project or a
GroupBy. -/
def Node.projectTuplesChecked : Node → Bool
  | .project _ _ _ => true
  | .groupBy _ _ _ _ => true
  | _ => false

/-- The typed validation errors of the analyzer, one per errors.NewKind
declaration, each carrying the arguments the source passes to New. -/
inductive ValidationError where
  | unresolved (nodeKind : String)
  | invalidOrderBy
  | invalidGroupBy (expr : String)
  | schemaSourceMismatch (tableName : String) (foundSource : String)
  | projectTuple (position : Nat) (numColumns : Nat)
  deriving DecidableEq

def validateResolvedRule : String := "validate_resolved"

def validateOrderByRule : String := "validate_order_by"

def validateGroupByRule : String := "validate_group_by"

def validateSchemaSourceRule : String := "validate_schema_source"

def validateProjectTuplesRule : String := "validate_project_tuples"

/-- validateIsResolved: fail with ErrValidationResolved on the node kind
unless the node reports itself resolved. -/
def validateIsResolved (n : Node) : Option ValidationError :=
  if !n.resolved then some (.unresolved n.kind) else none

/-- The loop body of validateOrderBy over n.SortFields: the first sort key
whose Column is an aggregation yields ErrValidationOrderBy. -/
def checkSortFields : List SortField → Option ValidationError
  | [] => none
  | f :: rest =>
    if f.column.isAggregation then some .invalidOrderBy
    else checkSortFields rest

/-- validateOrderBy: only plan.Sort nodes are inspected. -/
def validateOrderBy : Node → Option ValidationError
  | .sort sortFields _ _ => checkSortFields sortFields
  | _ => none

/-- stringContains: linear scan for an exact string match. -/
def stringContains : List String → String → Bool
  | [], _ => false
  | s :: rest, target => if s == target then true else stringContains rest target

/-- isValidAgg: an aggregation is always valid; an alias is valid when its
child is; any other expression is valid when its string form occurs among
the grouping-expression strings. -/
def isValidAgg (validAggs : List String) : Expression → Bool
  | .aggregation _ _ => true
  | .alias _ child => isValidAgg validAggs child
  | e => stringContains validAggs e.str

/-- The loop body of validateGroupBy over n.Aggregate: the first expression
that is neither an aggregation nor accepted by isValidAgg yields
ErrValidationGroupBy carrying that expression string. -/
def validateGroupByAggregates (validAggs : List String) :
    List Expression → Option ValidationError
  | [] => none
  | e :: rest =>
    if e.isAggregation then validateGroupByAggregates validAggs rest
    else if isValidAgg validAggs e then validateGroupByAggregates validAggs rest
    else some (.invalidGroupBy e.str)

/-- validateGroupBy: a GroupBy with no grouping expressions passes
unconditionally (the node is reused to evaluate aggregation functions for
statements without a GROUP BY clause); otherwise every aggregate expression
is checked against the grouping-expression strings. -/
def validateGroupBy : Node → Option ValidationError
  | .groupBy aggregate grouping _ _ =>
    if grouping.length == 0 then none
    else validateGroupByAggregates (grouping.map Expression.str) aggregate
  | _ => none

/-- validateSchema: the first column whose Source differs from the table
name yields ErrValidationSchemaSource with the table name and that source. -/
def validateSchema (name : String) : List Column → Option ValidationError
  | [] => none
  | col :: rest =>
    if col.source != name then some (.schemaSourceMismatch name col.source)
    else validateSchema name rest

/-- validateSchemaSource: a table alias is not itself validated, but a table
it directly wraps is; a bare table is validated; everything else passes. -/
def validateSchemaSource : Node → Option ValidationError
  | .tableAlias _ child _ =>
    match child with
    | .table name schema _ => validateSchema name schema
    | _ => none
  | .table name schema _ => validateSchema name schema
  | _ => none

/-- The loop body of validateProjectTuples over an expression list, carrying
the current 0-based position: the first expression whose static type is a
tuple yields ErrProjectTuple with the 1-based position and the column
count. -/
def checkProjectTuples (i : Nat) : List Expression → Option ValidationError
  | [] => none
  | e :: rest =>
    if e.typ.isTuple then some (.projectTuple (i + 1) e.typ.numColumns)
    else checkProjectTuples (i + 1) rest

/-- validateProjectTuples: Project nodes are checked over their Projections,
GroupBy nodes over their Aggregate list; everything else passes. -/
def validateProjectTuples : Node → Option ValidationError
  | .project projections _ _ => checkProjectTuples 0 projections
  | .groupBy aggregate _ _ _ => checkProjectTuples 0 aggregate
  | _ => none

/-- A named validation rule. Modelled from the spec: the ValidationRule
record type itself is declared outside the provided source files; per the
spec it pairs a rule name with its checking function. -/
structure ValidationRule where
  name : String
  apply : Node → Option ValidationError

/-- DefaultValidationRules, in source order. -/
def DefaultValidationRules : List ValidationRule :=
  [⟨validateResolvedRule, validateIsResolved⟩,
   ⟨validateOrderByRule, validateOrderBy⟩,
   ⟨validateGroupByRule, validateGroupBy⟩,
   ⟨validateSchemaSourceRule, validateSchemaSource⟩,
   ⟨validateProjectTuplesRule, validateProjectTuples⟩]

/-- TreeEntriesTableName. Modelled from the spec: the table name constant is
declared in the repository outside the provided source files; the claims
compare column sources against the constant itself, so only its identity
matters. -/
def TreeEntriesTableName : String := "tree_entries"

/-- TreeEntriesSchema, the declared schema for the tree entries table. -/
def TreeEntriesSchema : List Column :=
  [⟨"repository_id", .text, false, TreeEntriesTableName⟩,
   ⟨"tree_hash", .text, false, TreeEntriesTableName⟩,
   ⟨"blob_hash", .text, false, TreeEntriesTableName⟩,
   ⟨"tree_entry_mode", .text, false, TreeEntriesTableName⟩,
   ⟨"tree_entry_name", .text, false, TreeEntriesTableName⟩]

/-- A file entry of a tree (object.File): name, mode and blob hash. Hashes
are modelled by their canonical string rendering, which is the only
observation the code makes of them. -/
structure File where
  name : String
  mode : Nat
  hash : String
  deriving DecidableEq

/-- A resolved tree object: its hash (t.ID), the file entries its recursive
go-git file iterator yields in order, and the error that iterator ends with
instead of io.EOF, if any (the traversal is external and may fail
mid-stream). -/
structure Tree where
  hash : String
  files : List File
  filesErr : Option String := none
  deriving DecidableEq

/-- A value of sql.Row; every column of this table is textual, so a row is
a list of strings. -/
abbrev Row := List String

/-- The error returned by a row iterator Next call: io.EOF as the
end-of-data signal, or any other error with its message. -/
inductive IterError where
  | eof
  | other (msg : String)
  deriving DecidableEq

/-- The outcome of repo.Repo.TreeObject(hash): a tree, the distinguished
plumbing.ErrObjectNotFound, or any other object-store failure. -/
inductive LookupResult where
  | found (t : Tree)
  | notFound
  | failed (msg : String)

/-- The state of an object.TreeIter obtained from TreeObjects: the trees
still to be yielded, then either io.EOF or a trailing error. -/
structure TreeIterState where
  trees : List Tree
  terr : Option String := none

/-- A repository of the dataset: its ID and its object-store handle,
modelled by the observations made of it (hash-to-tree resolution and tree
enumeration). -/
structure Repository where
  id : String
  treeObject : String → LookupResult
  treeObjects : Except String TreeIterState := .ok ⟨[], none⟩

/-- strconv.FormatInt(mode, 8): the mode rendered in base 8. -/
def octalString (n : Nat) : String :=
  (Nat.toDigits 8 n).asString

/-- fileToRow: the full five-value row built for one file entry. -/
def fileToRow (repoID : String) (t : Tree) (f : File) : Row :=
  [repoID, t.hash, f.hash, octalString f.mode, f.name]

/-- The fileIter struct: repository id, the tree being flattened, the file
entries its object.FileIter still holds, and the error that iterator ends
with instead of io.EOF, if any. -/
structure FileIter where
  repoID : String
  t : Tree
  fi : List File
  terr : Option String := none

/-- fileIter.Next: propagate any error of the underlying file iterator
(including io.EOF) unchanged, otherwise emit the row for the next file. -/
def FileIter.next (i : FileIter) : Except IterError (Row × FileIter) :=
  match i.fi with
  | f :: rest => .ok (fileToRow i.repoID i.t f, { i with fi := rest })
  | [] =>
    match i.terr with
    | none => .error .eof
    | some e => .error (.other e)

/-- The treeEntryIter struct (full-traversal scan): the open tree iterator
(none models a nil pointer, the zero value before NewIterator ran), the
open file iterator, and the repository id. -/
structure TreeEntryIter where
  i : Option TreeIterState := none
  fi : Option FileIter := none
  repoID : String := ""

/-- treeEntryIter.NewIterator: open the repository tree enumeration,
propagating its error, and bind a fresh iterator to the repository. -/
def TreeEntryIter.newIterator (repo : Repository) : Except String TreeEntryIter :=
  match repo.treeObjects with
  | .error e => .error e
  | .ok iter => .ok { repoID := repo.id, i := some iter }

/-- Loop measure for treeEntryIter.Next: every continue either consumes a
tree or closes the file iterator. -/
def TreeEntryIter.loopMeasure (s : TreeEntryIter) : Nat :=
  2 * (match s.i with | none => 0 | some ti => ti.trees.length) +
    (if s.fi.isSome then 1 else 0)

/-- treeEntryIter.Next: with no open file iterator, pull the next tree
(propagating any error of the tree iterator, io.EOF included) and open its
file iterator; then pull rows from the file iterator, dropping it and
continuing on io.EOF and propagating any other error. A nil tree iterator
reflects calling Next on the zero value, which the driver never does. -/
def TreeEntryIter.next : TreeEntryIter → Except IterError (Row × TreeEntryIter)
  | ⟨ti, some fist, repoID⟩ =>
    match fist.next with
    | .ok (row, fist') => .ok (row, ⟨ti, some fist', repoID⟩)
    | .error .eof => TreeEntryIter.next ⟨ti, none, repoID⟩
    | .error e => .error e
  | ⟨none, none, _⟩ => .error (.other "nil tree iterator")
  | ⟨some ⟨[], none⟩, none, _⟩ => .error .eof
  | ⟨some ⟨[], some e⟩, none, _⟩ => .error (.other e)
  | ⟨some ⟨t :: rest, terr⟩, none, repoID⟩ =>
    TreeEntryIter.next
      ⟨some ⟨rest, terr⟩, some ⟨repoID, t, t.files, t.filesErr⟩, repoID⟩
termination_by s => s.loopMeasure
decreasing_by
  all_goals simp [TreeEntryIter.loopMeasure]
  all_goals omega

/-- The treeEntriesByHashIter struct (targeted scan): the extracted hashes,
the current position, the bound repository (none models the nil pointer of
the prototype the factory builds, before NewIterator ran) and the open file
iterator. -/
structure TreeEntriesByHashIter where
  hashes : List String
  pos : Nat := 0
  repo : Option Repository := none
  fi : Option FileIter := none

/-- treeEntriesByHashIter.NewIterator: a fresh iterator over the same hash
list, bound to the given repository, with position zero and no open file
iterator. It never fails. -/
def TreeEntriesByHashIter.newIterator (i : TreeEntriesByHashIter)
    (repo : Repository) : TreeEntriesByHashIter :=
  { hashes := i.hashes, repo := some repo }

/-- Loop measure for treeEntriesByHashIter.Next: every continue either
consumes a hash position or closes the file iterator. -/
def TreeEntriesByHashIter.loopMeasure (s : TreeEntriesByHashIter) : Nat :=
  2 * (s.hashes.length - s.pos) + (if s.fi.isSome then 1 else 0)

/-- treeEntriesByHashIter.Next: once the hashes are exhausted and no file
iterator is open, signal io.EOF; with no open file iterator, resolve the
hash at the current position and advance, continuing on
plumbing.ErrObjectNotFound, returning any other resolution error, and
opening the resolved tree file iterator otherwise; then pull rows from the
file iterator, dropping it and continuing on io.EOF and propagating any
other error. A nil repository reflects calling Next on the factory
prototype, which the driver never does. -/
def TreeEntriesByHashIter.next :
    TreeEntriesByHashIter → Except IterError (Row × TreeEntriesByHashIter)
  | ⟨hashes, pos, repo, some fist⟩ =>
    match fist.next with
    | .ok (row, fist') => .ok (row, ⟨hashes, pos, repo, some fist'⟩)
    | .error .eof => TreeEntriesByHashIter.next ⟨hashes, pos, repo, none⟩
    | .error e => .error e
  | ⟨hashes, pos, repo, none⟩ =>
    if hp : hashes.length ≤ pos then .error .eof
    else
      match repo with
      | none => .error (.other "nil repository")
      | some r =>
        match r.treeObject (hashes.get ⟨pos, by omega⟩) with
        | .notFound => TreeEntriesByHashIter.next ⟨hashes, pos + 1, repo, none⟩
        | .failed e => .error (.other e)
        | .found tree =>
          TreeEntriesByHashIter.next
            ⟨hashes, pos + 1, repo, some ⟨r.id, tree, tree.files, tree.filesErr⟩⟩
termination_by s => s.loopMeasure
decreasing_by
  all_goals simp [TreeEntriesByHashIter.loopMeasure]
  all_goals omega

/-- A per-repository row iterator of the tree-entries table, as returned by
the factory closure in WithProjectAndFilters: either the full-traversal
iterator or the by-hash iterator. -/
inductive RowRepoIter where
  | treeEntry (it : TreeEntryIter)
  | byHash (it : TreeEntriesByHashIter)

/-- A selector set. Modelled from the spec: the selectors type and its
textValues method are declared outside the provided source files; per the
spec a selector set maps each indexable column name to the list of literal
values extracted for it, empty when no predicate constrains the column. -/
abbrev Selectors := List (String × List String)

/-- Lookup of one column value list in a selector set; absent columns map
to the empty list. -/
def Selectors.get : Selectors → String → List String
  | [], _ => []
  | (k, vs) :: rest, name => if k == name then vs else Selectors.get rest name

/-- Modelled from the spec: selectors.textValues renders the extracted
literal values of one column as text; the values of this model are already
text, so the rendering is the identity and never fails. -/
def Selectors.textValues (s : Selectors) (name : String) :
    Except String (List String) :=
  .ok (s.get name)

/-- The indexable-filter column list the table passes to
rowIterWithSelectors in WithProjectAndFilters. -/
def treeEntriesIndexedColumns : List String := ["tree_hash"]

/-- The per-selector iterator factory closure of
treeEntriesTable.WithProjectAndFilters: with no extracted tree_hash values,
a zero-valued full-traversal iterator; otherwise a by-hash iterator over
exactly the extracted text values, propagating a textValues failure. -/
def treeEntriesIterFactory (sel : Selectors) : Except String RowRepoIter :=
  if (sel.get "tree_hash").length == 0 then .ok (.treeEntry {})
  else
    match sel.textValues "tree_hash" with
    | .error e => .error e
    | .ok hashes => .ok (.byHash { hashes := hashes })

/-- A row has the full five-value file-entry shape: it is the fileToRow
rendering of some repository id, tree and file. -/
def FileRowShaped (row : Row) : Prop :=
  ∃ repoID t f, row = fileToRow repoID t f

/-- The behaviour validateProjectTuples exhibits on one expression list:
it passes exactly when no expression has a tuple type, and the first
expression with a tuple type (every earlier one non-tuple) determines the
reported 1-indexed position and column count. -/
def ProjectTuplesSpec (es : List Expression) (res : Option ValidationError) : Prop :=
  (res = none ↔ es.all (fun e => !e.typ.isTuple)) ∧
  (∀ pre e suf, es = pre ++ e :: suf → pre.all (fun x => !x.typ.isTuple) →
    e.typ.isTuple = true →
    res = some (.projectTuple (pre.length + 1) e.typ.numColumns)) ∧
  (∀ err, res = some err → ∃ pre e suf, es = pre ++ e :: suf ∧
    pre.all (fun x => !x.typ.isTuple) ∧ e.typ.isTuple = true ∧
    err = .projectTuple (pre.length + 1) e.typ.numColumns)

theorem checkSortFields_none_iff (fs : List SortField) :
    checkSortFields fs = none ↔ fs.all (fun f => !f.column.isAggregation) := by
  induction fs with
  | nil => simp [checkSortFields]
  | cons f rest ih =>
    by_cases hf : f.column.isAggregation <;> simp [checkSortFields, hf, ih]

theorem checkSortFields_some_iff (fs : List SortField) :
    checkSortFields fs = some .invalidOrderBy ↔
      fs.any (fun f => f.column.isAggregation) := by
  induction fs with
  | nil => simp [checkSortFields]
  | cons f rest ih =>
    by_cases hf : f.column.isAggregation <;> simp [checkSortFields, hf, ih]

theorem validateSchema_none_iff (name : String) (schema : List Column) :
    validateSchema name schema = none ↔
      schema.all (fun c => c.source == name) := by
  induction schema with
  | nil => simp [validateSchema]
  | cons c rest ih =>
    by_cases hc : c.source = name <;> simp [validateSchema, hc, bne, ih]

theorem validateSchema_some (name : String) (schema : List Column)
    (res : ValidationError) :
    validateSchema name schema = some res →
    ∃ c, c ∈ schema ∧ c.source ≠ name ∧
      res = .schemaSourceMismatch name c.source := by
  induction schema with
  | nil => intro h; simp [validateSchema] at h
  | cons c rest ih =>
    intro h
    by_cases hc : c.source = name
    · simp [validateSchema, hc, bne] at h
      obtain ⟨c', hm, hs, hr⟩ := ih h
      exact ⟨c', List.mem_cons_of_mem _ hm, hs, hr⟩
    · simp [validateSchema, hc, bne] at h
      exact ⟨c, List.mem_cons_self c rest, hc, h.symm⟩

theorem checkProjectTuples_none_iff (k : Nat) (es : List Expression) :
    checkProjectTuples k es = none ↔ es.all (fun e => !e.typ.isTuple) := by
  induction es generalizing k with
  | nil => simp [checkProjectTuples]
  | cons e rest ih =>
    by_cases he : e.typ.isTuple <;> simp [checkProjectTuples, he, ih]

theorem checkProjectTuples_first (pre : List Expression) (e : Expression)
    (suf : List Expression) :
    ∀ k : Nat, pre.all (fun x => !x.typ.isTuple) → e.typ.isTuple = true →
    checkProjectTuples k (pre ++ e :: suf) =
      some (.projectTuple (k + pre.length + 1) e.typ.numColumns) := by
  induction pre with
  | nil => intro k _ he; simp [checkProjectTuples, he]
  | cons x rest ih =>
    intro k hall he
    simp only [List.all_cons, Bool.and_eq_true, Bool.not_eq_true'] at hall
    obtain ⟨hx, hrest⟩ := hall
    have hstep : checkProjectTuples k (x :: rest ++ e :: suf) =
        checkProjectTuples (k + 1) (rest ++ e :: suf) := by
      simp [checkProjectTuples, hx]
    rw [hstep, ih (k + 1) hrest he]
    simp only [Option.some.injEq, ValidationError.projectTuple.injEq,
      List.length_cons, and_true]
    omega

theorem checkProjectTuples_some (es : List Expression) :
    ∀ (k : Nat) (res : ValidationError), checkProjectTuples k es = some res →
    ∃ pre e suf, es = pre ++ e :: suf ∧
      pre.all (fun x => !x.typ.isTuple) ∧ e.typ.isTuple = true ∧
      res = .projectTuple (k + pre.length + 1) e.typ.numColumns := by
  induction es with
  | nil => intro k res h; simp [checkProjectTuples] at h
  | cons x rest ih =>
    intro k res h
    by_cases hx : x.typ.isTuple
    · simp [checkProjectTuples, hx] at h
      exact ⟨[], x, rest, rfl, by simp, hx, by simp [h.symm]⟩
    · simp [checkProjectTuples, hx] at h
      obtain ⟨pre, e, suf, heq, hall, he, hres⟩ := ih (k + 1) res h
      refine ⟨x :: pre, e, suf, by rw [heq, List.cons_append], ?_, he, ?_⟩
      · simp [hall, hx]
      · rw [hres]
        simp only [ValidationError.projectTuple.injEq, List.length_cons,
          and_true]
        omega

theorem validateGroupByAggregates_none_iff (va : List String)
    (es : List Expression) :
    validateGroupByAggregates va es = none ↔
      es.all (fun e => e.isAggregation || isValidAgg va e) := by
  induction es with
  | nil => simp [validateGroupByAggregates]
  | cons e rest ih =>
    by_cases h1 : e.isAggregation
    · simp [validateGroupByAggregates, h1, ih]
    · by_cases h2 : isValidAgg va e <;>
        simp [validateGroupByAggregates, h1, h2, ih]

theorem validateGroupByAggregates_some (va : List String)
    (es : List Expression) (res : ValidationError) :
    validateGroupByAggregates va es = some res →
    ∃ e, e ∈ es ∧ e.isAggregation = false ∧ isValidAgg va e = false ∧
      res = .invalidGroupBy e.str := by
  induction es with
  | nil => intro h; simp [validateGroupByAggregates] at h
  | cons e rest ih =>
    intro h
    by_cases h1 : e.isAggregation
    · simp only [validateGroupByAggregates, h1, if_true] at h
      obtain ⟨e', hm, ha, hv, hr⟩ := ih h
      exact ⟨e', List.mem_cons_of_mem _ hm, ha, hv, hr⟩
    · by_cases h2 : isValidAgg va e
      · simp only [validateGroupByAggregates, h1, h2, Bool.false_eq_true,
          if_false, if_true] at h
        obtain ⟨e', hm, ha, hv, hr⟩ := ih h
        exact ⟨e', List.mem_cons_of_mem _ hm, ha, hv, hr⟩
      · simp [validateGroupByAggregates, h1, h2] at h
        exact ⟨e, List.mem_cons_self e rest, by simpa using h1,
          by simpa using h2, h.symm⟩

/-- C7: the resolved rule returns an Unresolved error carrying the node
kind exactly when the node reports itself not resolved, returns no error
for every node reporting resolved, and is the first entry of the default
rule list. -/
theorem validate_resolved_spec :
    (∀ n : Node,
      (validateIsResolved n = some (.unresolved n.kind) ↔ n.resolved = false) ∧
      (validateIsResolved n = none ↔ n.resolved = true)) ∧
    DefaultValidationRules.head? =
      some ⟨validateResolvedRule, validateIsResolved⟩ := by
  constructor
  · intro n
    unfold validateIsResolved
    cases hr : n.resolved <;> simp
  · rfl

/-- C7 witness: a concrete unresolved node fails with its kind. -/
theorem validate_resolved_witness :
    validateIsResolved (.other "*plan.CrossJoin" false) =
      some (.unresolved "*plan.CrossJoin") :=
  ((validate_resolved_spec.1 (.other "*plan.CrossJoin" false)).1).mpr rfl

/-- C6: the order-by rule fails with InvalidOrderBy exactly when some sort
key of a Sort node is an aggregation, passes a Sort node whose keys are all
non-aggregations, and passes every non-Sort node. -/
theorem validate_order_by_spec :
    (∀ (fs : List SortField) (child : Node) (r : Bool),
      (validateOrderBy (.sort fs child r) = some .invalidOrderBy ↔
        fs.any (fun f => f.column.isAggregation)) ∧
      (validateOrderBy (.sort fs child r) = none ↔
        fs.all (fun f => !f.column.isAggregation))) ∧
    (∀ n : Node, n.isSort = false → validateOrderBy n = none) := by
  constructor
  · intro fs child r
    exact ⟨checkSortFields_some_iff fs, checkSortFields_none_iff fs⟩
  · intro n hn
    cases n <;> simp_all [validateOrderBy, Node.isSort]

/-- C6 witness: a Sort node with an aggregation sort key fails. -/
theorem validate_order_by_witness :
    validateOrderBy
        (.sort [⟨.aggregation "COUNT(a)" .text⟩] (.other "*plan.Limit" true) true) =
      some .invalidOrderBy :=
  ((validate_order_by_spec.1 [⟨.aggregation "COUNT(a)" .text⟩]
      (.other "*plan.Limit" true) true).1).mpr (by decide)

/-- C1: a GroupBy node with no grouping expressions always passes; with
grouping expressions it passes exactly when every aggregate expression is
an aggregation or accepted by the alias-unwrapping string comparison
against the grouping strings, and any error it returns is InvalidGroupBy
carrying the string of an offending aggregate expression; every non-GroupBy
node passes. -/
theorem validate_group_by_spec :
    (∀ (aggregate grouping : List Expression) (child : Node) (r : Bool),
      (grouping = [] →
        validateGroupBy (.groupBy aggregate grouping child r) = none) ∧
      (grouping ≠ [] →
        ((validateGroupBy (.groupBy aggregate grouping child r) = none) ↔
          aggregate.all (fun e =>
            e.isAggregation || isValidAgg (grouping.map Expression.str) e)) ∧
        (∀ res,
          validateGroupBy (.groupBy aggregate grouping child r) = some res →
          ∃ e, e ∈ aggregate ∧ e.isAggregation = false ∧
            isValidAgg (grouping.map Expression.str) e = false ∧
            res = .invalidGroupBy e.str))) ∧
    (∀ n : Node, n.isGroupBy = false → validateGroupBy n = none) := by
  constructor
  · intro aggregate grouping child r
    constructor
    · intro hg
      subst hg
      simp [validateGroupBy]
    · intro hg
      have hlen : (grouping.length == 0) = false := by
        cases grouping with
        | nil => exact absurd rfl hg
        | cons g gs => rfl
      constructor
      · simp only [validateGroupBy, hlen, Bool.false_eq_true, if_false]
        exact validateGroupByAggregates_none_iff _ _
      · intro res hres
        simp only [validateGroupBy, hlen, Bool.false_eq_true, if_false] at hres
        exact validateGroupByAggregates_some _ _ _ hres
  · intro n hn
    cases n <;> simp_all [validateGroupBy, Node.isGroupBy]

/-- C1 witness: with grouping expressions present, an aggregate expression
that is neither an aggregation nor string-equal to a grouping expression
fails with its string form. -/
theorem validate_group_by_witness :
    validateGroupBy
        (.groupBy [.other "b" .text] [.other "a" .text]
          (.other "*plan.ResolvedTable" true) true) =
      some (.invalidGroupBy "b") := by
  have h := (validate_group_by_spec.1 [.other "b" .text] [.other "a" .text]
    (.other "*plan.ResolvedTable" true) true).2 (by simp)
  rcases hres : validateGroupBy
      (.groupBy [.other "b" .text] [.other "a" .text]
        (.other "*plan.ResolvedTable" true) true) with _ | res
  · exact absurd (h.1.mp hres) (by decide)
  · obtain ⟨e, hm, _, _, hr⟩ := h.2 res hres
    simp only [List.mem_singleton] at hm
    subst hm
    rw [hr]
    rfl

/-- C5: the schema-source rule fails on a Table exactly when some schema
column has a source other than the table name, and any error carries the
table name and the offending source; a TableAlias wrapping a Table is
checked exactly as the underlying Table; every other node passes. -/
theorem validate_schema_source_spec :
    (∀ (name : String) (schema : List Column) (r : Bool),
      (validateSchemaSource (.table name schema r) = none ↔
        schema.all (fun c => c.source == name)) ∧
      (∀ res, validateSchemaSource (.table name schema r) = some res →
        ∃ c, c ∈ schema ∧ c.source ≠ name ∧
          res = .schemaSourceMismatch name c.source) ∧
      (∀ (aliasName : String) (ar : Bool),
        validateSchemaSource (.tableAlias aliasName (.table name schema r) ar) =
          validateSchemaSource (.table name schema r))) ∧
    (∀ n : Node, n.schemaSourceChecked = false →
      validateSchemaSource n = none) := by
  constructor
  · intro name schema r
    refine ⟨validateSchema_none_iff name schema,
      fun res h => validateSchema_some name schema res h, fun aliasName ar => rfl⟩
  · intro n hn
    cases n with
    | sort fs child r => rfl
    | groupBy a g child r => rfl
    | project p child r => rfl
    | table name schema r => simp [Node.schemaSourceChecked] at hn
    | tableAlias name child r =>
      cases child <;> simp_all [validateSchemaSource, Node.schemaSourceChecked]
    | other k r => rfl

/-- C5 witness: a table with one column sourced elsewhere fails with the
table name and the found source, and the alias wrapper reports the same. -/
theorem validate_schema_source_witness :
    validateSchemaSource
        (.tableAlias "t2" (.table "t" [⟨"c", .text, false, "u"⟩] true) true) =
      validateSchemaSource (.table "t" [⟨"c", .text, false, "u"⟩] true) :=
  (validate_schema_source_spec.1 "t" [⟨"c", .text, false, "u"⟩] true).2.2 "t2" true

/-- C8: the projection-tuple rule checks the Projections of a Project node
and the Aggregate list of a GroupBy node identically: it passes exactly
when no listed expression has a multi-column tuple type, and the first
expression with a tuple type determines the reported 1-indexed position
and column count; every other node passes. -/
theorem validate_project_tuples_spec :
    (∀ (es : List Expression) (child : Node) (r : Bool),
      ProjectTuplesSpec es (validateProjectTuples (.project es child r))) ∧
    (∀ (agg grp : List Expression) (child : Node) (r : Bool),
      ProjectTuplesSpec agg
        (validateProjectTuples (.groupBy agg grp child r))) ∧
    (∀ n : Node, n.projectTuplesChecked = false →
      validateProjectTuples n = none) := by
  have hspec : ∀ es : List Expression, ProjectTuplesSpec es (checkProjectTuples 0 es) := by
    intro es
    refine ⟨checkProjectTuples_none_iff 0 es, ?_, ?_⟩
    · intro pre e suf heq hall he
      rw [heq, checkProjectTuples_first pre e suf 0 hall he]
      simp
    · intro err herr
      obtain ⟨pre, e, suf, heq, hall, he, hres⟩ :=
        checkProjectTuples_some es 0 err herr
      exact ⟨pre, e, suf, heq, hall, he, by simpa using hres⟩
  refine ⟨fun es child r => hspec es, fun agg grp child r => hspec agg, ?_⟩
  intro n hn
  cases n <;> simp_all [validateProjectTuples, Node.projectTuplesChecked]

/-- C8 witness: a Project whose first expression has a 3-column tuple type
fails at position 1 with count 3. -/
theorem validate_project_tuples_witness :
    validateProjectTuples
        (.project [.other "(a, b, c)" (.tuple 3)] (.other "*plan.ResolvedTable" true) true) =
      some (.projectTuple 1 3) := by
  have h := (validate_project_tuples_spec.1 [.other "(a, b, c)" (.tuple 3)]
    (.other "*plan.ResolvedTable" true) true).2.1 [] (.other "(a, b, c)" (.tuple 3)) []
    rfl (by simp) rfl
  simpa using h

theorem fileIterNext_shape (i : FileIter) (row : Row) (i' : FileIter)
    (h : i.next = .ok (row, i')) : FileRowShaped row := by
  unfold FileIter.next at h
  rcases hfi : i.fi with _ | ⟨f, rest⟩ <;> simp [hfi] at h
  · cases ht : i.terr <;> simp [ht] at h
  · exact ⟨i.repoID, i.t, f, h.1.symm⟩

theorem byHashNext_shape :
    ∀ (s : TreeEntriesByHashIter) (row : Row) (s' : TreeEntriesByHashIter),
      s.next = .ok (row, s') → FileRowShaped row := by
  intro s
  induction s using TreeEntriesByHashIter.next.induct with
  | case1 hashes pos repo fist row1 fist1 hnext =>
    intro row0 s0 h
    rw [TreeEntriesByHashIter.next] at h
    rw [hnext] at h
    simp at h
    exact h.1 ▸ fileIterNext_shape fist row1 fist1 hnext
  | case2 hashes pos repo fist hnext ih =>
    intro row0 s0 h
    rw [TreeEntriesByHashIter.next] at h
    rw [hnext] at h
    exact ih row0 s0 h
  | case3 hashes pos repo fist e hne hnext =>
    intro row0 s0 h
    rw [TreeEntriesByHashIter.next] at h
    rw [hnext] at h
    rcases e with _ | m
    · exact absurd rfl hne
    · simp at h
  | case4 hashes pos repo hp =>
    intro row0 s0 h
    rw [TreeEntriesByHashIter.next] at h
    rw [dif_pos hp] at h
    simp at h
  | case5 hashes pos hp =>
    intro row0 s0 h
    rw [TreeEntriesByHashIter.next] at h
    rw [dif_neg hp] at h
    simp at h
  | case6 hashes pos hp r hlook ih =>
    intro row0 s0 h
    rw [TreeEntriesByHashIter.next] at h
    rw [dif_neg hp] at h
    simp only [hlook] at h
    exact ih row0 s0 h
  | case7 hashes pos hp r e hlook =>
    intro row0 s0 h
    rw [TreeEntriesByHashIter.next] at h
    rw [dif_neg hp] at h
    simp only [hlook] at h
    simp at h
  | case8 hashes pos hp r tree hlook ih =>
    intro row0 s0 h
    rw [TreeEntriesByHashIter.next] at h
    rw [dif_neg hp] at h
    simp only [hlook] at h
    exact ih row0 s0 h

theorem treeEntryNext_shape :
    ∀ (s : TreeEntryIter) (row : Row) (s' : TreeEntryIter),
      s.next = .ok (row, s') → FileRowShaped row := by
  intro s
  induction s using TreeEntryIter.next.induct with
  | case1 ti fist repoID row1 fist1 hnext =>
    intro row0 s0 h
    rw [TreeEntryIter.next] at h
    rw [hnext] at h
    simp at h
    exact h.1 ▸ fileIterNext_shape fist row1 fist1 hnext
  | case2 ti fist repoID hnext ih =>
    intro row0 s0 h
    rw [TreeEntryIter.next] at h
    rw [hnext] at h
    exact ih row0 s0 h
  | case3 ti fist repoID e hne hnext =>
    intro row0 s0 h
    rw [TreeEntryIter.next] at h
    rw [hnext] at h
    rcases e with _ | m
    · exact absurd rfl hne
    · simp at h
  | case4 repoID =>
    intro row0 s0 h
    rw [TreeEntryIter.next] at h
    simp at h
  | case5 repoID =>
    intro row0 s0 h
    rw [TreeEntryIter.next] at h
    simp at h
  | case6 e repoID =>
    intro row0 s0 h
    rw [TreeEntryIter.next] at h
    simp at h
  | case7 t rest terr repoID ih =>
    intro row0 s0 h
    rw [TreeEntryIter.next] at h
    exact ih row0 s0 h

theorem byHashNext_all_notFound (hashes : List String) (repo : Repository)
    (hall : ∀ hsh ∈ hashes, repo.treeObject hsh = .notFound) :
    ∀ (k pos : Nat), hashes.length - pos ≤ k →
      TreeEntriesByHashIter.next ⟨hashes, pos, some repo, none⟩ =
        .error .eof := by
  intro k
  induction k with
  | zero =>
    intro pos hk
    have hp : hashes.length ≤ pos := by omega
    rw [TreeEntriesByHashIter.next, dif_pos hp]
  | succ k ih =>
    intro pos hk
    by_cases hp : hashes.length ≤ pos
    · rw [TreeEntriesByHashIter.next, dif_pos hp]
    · rw [TreeEntriesByHashIter.next, dif_neg hp]
      have hm := hall (hashes.get ⟨pos, by omega⟩) (hashes.get_mem _ _)
      simp only [hm]
      exact ih (pos + 1) (by omega)

/-- C2: for the by-hash iterator bound to a repository, a hash whose
resolution reports object-not-found is skipped — Next proceeds exactly as
if positioned past it, and if every hash resolves to not-found the stream
ends with io.EOF and no rows — while any other resolution error, and any
error of the open file iterator, is returned immediately. -/
theorem tree_entries_by_hash_error_spec :
    (∀ (hashes : List String) (pos : Nat) (repo : Repository)
        (hp : pos < hashes.length),
      repo.treeObject (hashes.get ⟨pos, hp⟩) = .notFound →
      TreeEntriesByHashIter.next ⟨hashes, pos, some repo, none⟩ =
        TreeEntriesByHashIter.next ⟨hashes, pos + 1, some repo, none⟩) ∧
    (∀ (hashes : List String) (pos : Nat) (repo : Repository),
      (∀ hsh ∈ hashes, repo.treeObject hsh = .notFound) →
      TreeEntriesByHashIter.next ⟨hashes, pos, some repo, none⟩ =
        .error .eof) ∧
    (∀ (hashes : List String) (pos : Nat) (repo : Repository)
        (hp : pos < hashes.length) (e : String),
      repo.treeObject (hashes.get ⟨pos, hp⟩) = .failed e →
      TreeEntriesByHashIter.next ⟨hashes, pos, some repo, none⟩ =
        .error (.other e)) ∧
    (∀ (hashes : List String) (pos : Nat) (repo : Option Repository)
        (fist : FileIter) (e : String),
      fist.next = .error (.other e) →
      TreeEntriesByHashIter.next ⟨hashes, pos, repo, some fist⟩ =
        .error (.other e)) := by
  refine ⟨?_, ?_, ?_, ?_⟩
  · intro hashes pos repo hp hlook
    rw [TreeEntriesByHashIter.next, dif_neg (by omega)]
    simp only [hlook]
  · intro hashes pos repo hall
    exact byHashNext_all_notFound hashes repo hall (hashes.length - pos) pos
      (Nat.le_refl _)
  · intro hashes pos repo hp e hlook
    rw [TreeEntriesByHashIter.next, dif_neg (by omega)]
    simp only [hlook]
  · intro hashes pos repo fist e hnext
    rw [TreeEntriesByHashIter.next]
    rw [hnext]

/-- C2 witness: against a repository resolving every hash to not-found and
failing otherwise, the by-hash iterator over two absent hashes yields
io.EOF — both hashes are skipped without error or rows. -/
theorem tree_entries_by_hash_error_witness :
    TreeEntriesByHashIter.next
        ⟨["h1", "h2"], 0, some ⟨"r1", fun _ => .notFound, .ok ⟨[], none⟩⟩, none⟩ =
      .error .eof :=
  tree_entries_by_hash_error_spec.2.1 ["h1", "h2"] 0
    ⟨"r1", fun _ => .notFound, .ok ⟨[], none⟩⟩ (fun _ _ => rfl)

/-- C3: the per-selector factory of WithProjectAndFilters builds the
full-traversal iterator (the zero value of treeEntryIter) exactly when no
tree_hash values were extracted, and otherwise builds the by-hash iterator
holding exactly the extracted text values. -/
theorem tree_entries_selector_dispatch :
    (∀ sel : Selectors, sel.get "tree_hash" = [] →
      treeEntriesIterFactory sel = .ok (.treeEntry ⟨none, none, ""⟩)) ∧
    (∀ sel : Selectors, sel.get "tree_hash" ≠ [] →
      treeEntriesIterFactory sel =
        .ok (.byHash ⟨sel.get "tree_hash", 0, none, none⟩)) := by
  constructor
  · intro sel hsel
    simp [treeEntriesIterFactory, hsel]
  · intro sel hsel
    have hlen : ((sel.get "tree_hash").length == 0) = false := by
      rcases hget : sel.get "tree_hash" with _ | ⟨v, vs⟩
      · exact absurd hget hsel
      · rfl
    simp [treeEntriesIterFactory, hlen, Selectors.textValues]

/-- C3 witness: one extracted tree_hash value dispatches to the by-hash
iterator holding exactly that value. -/
theorem tree_entries_selector_dispatch_witness :
    treeEntriesIterFactory [("tree_hash", ["abc"])] =
      .ok (.byHash ⟨["abc"], 0, none, none⟩) := by
  have h := tree_entries_selector_dispatch.2 [("tree_hash", ["abc"])] (by simp [Selectors.get])
  simpa [Selectors.get] using h

/-- C4: fileToRow always builds the full five-value row (repository id,
tree hash, blob hash, octal mode, file name) in that order, and every row
either scan path emits comes from fileToRow — neither path can emit a row
of another shape. -/
theorem tree_entries_row_shape :
    (∀ (repoID : String) (t : Tree) (f : File),
      fileToRow repoID t f =
        [repoID, t.hash, f.hash, octalString f.mode, f.name]) ∧
    (∀ (s : TreeEntryIter) (row : Row) (s' : TreeEntryIter),
      s.next = .ok (row, s') → FileRowShaped row) ∧
    (∀ (s : TreeEntriesByHashIter) (row : Row) (s' : TreeEntriesByHashIter),
      s.next = .ok (row, s') → FileRowShaped row) :=
  ⟨fun _ _ _ => rfl, treeEntryNext_shape, byHashNext_shape⟩

/-- C4 witness: a concrete Next call of the by-hash iterator produces a
row of the five-value shape (mode 420 renders as octal 644). -/
theorem tree_entries_row_shape_witness :
    FileRowShaped ["r1", "t1", "b1", "644", "a.txt"] :=
  tree_entries_row_shape.2.2
    ⟨[], 0, none,
      some ⟨"r1", ⟨"t1", [⟨"a.txt", 420, "b1"⟩], none⟩,
        [⟨"a.txt", 420, "b1"⟩], none⟩⟩
    ["r1", "t1", "b1", "644", "a.txt"]
    ⟨[], 0, none,
      some ⟨"r1", ⟨"t1", [⟨"a.txt", 420, "b1"⟩], none⟩, [], none⟩⟩
    (by rw [TreeEntriesByHashIter.next]; rfl)

/-- C9: the tree-entries schema is exactly the five text columns in order,
all non-nullable and all sourced from the tree-entries table name, and the
table passes exactly one indexable filter column, tree_hash. -/
theorem tree_entries_schema_spec :
    TreeEntriesSchema.map Column.name =
      ["repository_id", "tree_hash", "blob_hash", "tree_entry_mode",
        "tree_entry_name"] ∧
    TreeEntriesSchema.length = 5 ∧
    (TreeEntriesSchema.all fun c =>
      !c.nullable && c.source == TreeEntriesTableName) = true ∧
    treeEntriesIndexedColumns = ["tree_hash"] ∧
    treeEntriesIndexedColumns.length = 1 :=
  ⟨rfl, rfl, by decide, rfl, rfl⟩

/-- C10: instantiating the by-hash iterator for a repository always
returns a fresh iterator over the same hash list, bound to that
repository, at position zero with no open file iterator, whatever the
state of the iterator it was instantiated from. -/
theorem by_hash_new_iterator_spec :
    ∀ (i : TreeEntriesByHashIter) (repo : Repository),
      i.newIterator repo =
        ⟨i.hashes, 0, some repo, none⟩ :=
  fun _ _ => rfl

end Gitbase
